import Mathlib

/-!
Verification of the CodeQL-orchestration web application (`src/app.py`)
against its natural-language specification.

We shallowly embed the pure decision logic of the program in Lean:

* string/path helpers model the behaviour of `os.path` on Windows paths
  (the program hard-codes Windows paths such as `D:\NetworkSecurity\...`,
  so `os.path` is `ntpath`: separators are `\` and `/`);
* the filesystem is modelled by an explicit `Fs` record of query functions
  (`os.path.exists`, `os.path.isdir`, `os.listdir`), and each uploaded
  source tree by a `SourceTree` record carrying the facts the code reads
  from it (its path, whether `pom.xml` exists at its root, and the list of
  relative file paths produced by `os.walk`);
* the external CodeQL engine is an oracle `Nat → ProcBehavior` giving the
  behaviour of the k-th subprocess invocation of a scan; `run_command`
  maps a behaviour to the `(returncode, stdout, stderr)` triple exactly as
  the Python wrapper does (timeout ↦ `(-2, "", "命令执行超时")`,
  other exception ↦ `(-1, "", msg)`);
* `run_codeql_analysis` returns, besides its result, the trace of engine
  commands it issued, so that retry/fallback policies become provable
  statements about traces;
* SARIF documents are structured values (`SarifDoc`), with a `malformed`
  constructor standing for any document whose processing raises inside
  `parse_sarif`'s `try` block.
-/

namespace App

/-! ## String and path helpers (model of `ntpath` operations) -/

/-- Index of the last occurrence of `c` in the list, `-1` if absent:
the behaviour of Python's `str.rfind` for a single character. -/
def rfind (c : Char) : List Char → Int
  | [] => -1
  | x :: t =>
    let r := rfind c t
    if r ≥ 0 then r + 1 else if x = c then 0 else -1

/-- `os.path.join a b` for Windows paths (the program only joins a
directory that has no trailing separator with a plain name). -/
def pjoin (a b : String) : String := a ++ "\\" ++ b

/-- `os.path.basename`: everything after the last `\` or `/`. -/
def baseName (p : String) : String :=
  ⟨p.data.drop (max (rfind '\\' p.data) (rfind '/' p.data) + 1).toNat⟩

/-- Wrap a string in double quotes, as the f-strings in the code do. -/
def quote (s : String) : String := "\"" ++ s ++ "\""

/-- ASCII lowering, the behaviour of `str.lower()` on the ASCII strings
(extensions, SARIF levels) this program lowers. -/
def lowerAscii (s : String) : String := ⟨s.data.map Char.toLower⟩

/-- `str.endswith`. -/
def strEndsWith (s suf : String) : Bool := suf.data.isSuffixOf s.data

/-- Auxiliary for substring containment. -/
def containsAux (needle : List Char) : List Char → Bool
  | [] => needle.isPrefixOf ([] : List Char)
  | c :: t => needle.isPrefixOf (c :: t) || containsAux needle t

/-- Python's `needle in hay` substring test. -/
def strContainsSub (hay needle : String) : Bool :=
  containsAux needle.data hay.data

/-- `rule.split("/")[-1]`: the last `/`-separated segment. -/
def lastSegment (s : String) : String := (s.splitOn "/").getLastD ""

/-! ## Language detector (`detect_language`, app.py lines 48-68) -/

/-- The extension→language mapping of `detect_language`. -/
def extLangMapping : List (String × String) :=
  [(".java", "java"),
   (".py", "python"),
   (".js", "javascript"), (".jsx", "javascript"),
   (".ts", "javascript"), (".tsx", "javascript"),
   (".c", "cpp"), (".cpp", "cpp"), (".h", "cpp"), (".cc", "cpp"),
   (".cs", "csharp"),
   (".go", "go"),
   (".rb", "ruby")]

/-- Whether some index strictly between `sepIndex` and `dotIndex` holds a
character other than `.` — the loop condition inside `ntpath.splitext`
that prevents a leading-dot file such as `.bashrc` from having an
extension. -/
def hasStemChar (p : List Char) (sepIndex dotIndex : Int) : Bool :=
  (List.range p.length).any fun k =>
    decide (sepIndex < (k : Int)) && decide ((k : Int) < dotIndex) &&
      (p.get? k != some '.')

/-- The extension part of `os.path.splitext` (`ntpath` variant):
the suffix from the last dot, provided that dot lies after the last path
separator and the base name does not consist solely of leading dots. -/
def splitextExtension (f : String) : String :=
  let p := f.data
  let sepIndex := max (rfind '\\' p) (rfind '/' p)
  let dotIndex := rfind '.' p
  if dotIndex > sepIndex && hasStemChar p sepIndex dotIndex then
    ⟨p.drop dotIndex.toNat⟩
  else ""

/-- The language a single file contributes to the histogram, if any:
`mapping.get(os.path.splitext(f)[1].lower())`. -/
def langOf (f : String) : Option String :=
  extLangMapping.lookup (lowerAscii (splitextExtension f))

/-- `exts[lang] = exts.get(lang, 0) + 1` on an insertion-ordered dict,
modelled as an association list: increment the first entry with this key,
or append a fresh entry with count 1. -/
def bump (acc : List (String × Nat)) (l : String) : List (String × Nat) :=
  match acc with
  | [] => [(l, 1)]
  | (k, c) :: rest =>
    if k = l then (k, c + 1) :: rest else (k, c) :: bump rest l

/-- The `exts` dictionary after the loop of `detect_language`, in
insertion (= first-seen) order. -/
def histOf (fl : List String) : List (String × Nat) :=
  (fl.filterMap langOf).foldl bump []

/-- Python's `max(items, key=lambda x: x[1])`: the first item of maximal
count (`max` only replaces its candidate on a strictly greater key). -/
def maxFirst (x : String × Nat) (xs : List (String × Nat)) : String × Nat :=
  xs.foldl (fun acc y => if y.2 > acc.2 then y else acc) x

/-- `detect_language` (app.py lines 48-68). -/
def detect_language (fl : List String) : Option String :=
  match histOf fl with
  | [] => none
  | x :: xs => some (maxFirst x xs).1

/-! ## Build strategy resolver (`get_build_command`, app.py lines 70-85) -/

/-- An uploaded source tree as the code observes it: its directory path,
whether `pom.xml` exists at the root (`has_maven_project`), and the
relative file paths that `os.walk` enumerates, in walk order. -/
structure SourceTree where
  path : String
  hasPomXml : Bool
  files : List String

/-- `has_maven_project`: `os.path.exists(os.path.join(root, "pom.xml"))`. -/
def has_maven_project (tree : SourceTree) : Bool := tree.hasPomXml

/-- `get_build_command` (app.py lines 73-85).  The unused `env` parameter
of the Python function is omitted.  The walk collecting `.java` relative
paths is modelled by filtering `tree.files`. -/
def get_build_command (tree : SourceTree) (lang : String) : String :=
  if lang = "java" && has_maven_project tree then
    "mvn clean compile -DskipTests -Dmaven.test.skip=true"
  else if lang = "java" then
    let files := tree.files.filter (fun f => strEndsWith f ".java")
    if files.isEmpty then "echo No Java"
    else "javac -encoding UTF-8 " ++ String.intercalate " " files
  else "echo No build needed"

/-! ## Ruleset resolver (`get_query_suite`, app.py lines 87-135) -/

/-- The ambient environment: `os.path.expanduser("~")`. -/
structure Env where
  userHome : String

/-- The filesystem as the resolver queries it:
`os.path.exists`, `os.path.isdir`, `os.listdir` (in listing order). -/
structure Fs where
  pathExists : String → Bool
  isdir : String → Bool
  listdir : String → List String

def CODEQL_PATH : String := "D:\\NetworkSecurity\\codeql\\codeql.exe"

def RESULT_DIR : String := "D:\\NetworkSecurity\\project\\results"

def CODEQL_REPO (env : Env) : String :=
  pjoin (pjoin env.userHome ".codeql") "packages"

def JAVA_QUERIES_PATH (env : Env) : String :=
  pjoin (pjoin (pjoin (CODEQL_REPO env) "codeql") "java-queries") "1.8.2"

def JAVA_SECURITY_SUITE (env : Env) : String :=
  pjoin (pjoin (JAVA_QUERIES_PATH env) "codeql-suites")
    "java-security-and-quality.qls"

def PYTHON_QUERIES_166_PATH : String :=
  "D:\\tmp\\python-old\\codeql\\python-queries\\1.6.6"

def PYTHON_SECURITY_SUITE_166 : String :=
  pjoin (pjoin PYTHON_QUERIES_166_PATH "codeql-suites")
    "python-security-and-quality.qls"

/-- `get_query_suite` (app.py lines 87-135).  Each `for f in
os.listdir(d): if f.endswith(".qls"): return join(d, f)` loop is the
first `.qls` entry of the listing, if any. -/
def get_query_suite (env : Env) (fs : Fs) (lang : String) : String :=
  if lang = "java" then
    if fs.pathExists (JAVA_SECURITY_SUITE env) then JAVA_SECURITY_SUITE env
    else
      let suite_dir := pjoin (JAVA_QUERIES_PATH env) "codeql-suites"
      if fs.isdir suite_dir then
        match (fs.listdir suite_dir).find? (fun f => strEndsWith f ".qls") with
        | some f => pjoin suite_dir f
        | none => "codeql/java-queries"
      else "codeql/java-queries"
  else if lang = "javascript" then
    let js := pjoin (pjoin (CODEQL_REPO env) "codeql") "javascript-queries"
    if fs.isdir js then
      let q := pjoin (pjoin js "codeql-suites")
        "javascript-security-and-quality.qls"
      if fs.pathExists q then q else js
    else "codeql/javascript-queries"
  else if lang = "python" then
    if fs.pathExists PYTHON_SECURITY_SUITE_166 then PYTHON_SECURITY_SUITE_166
    else if fs.isdir PYTHON_QUERIES_166_PATH then
      let suite_dir := pjoin PYTHON_QUERIES_166_PATH "codeql-suites"
      if fs.isdir suite_dir then
        match (fs.listdir suite_dir).find? (fun f => strEndsWith f ".qls") with
        | some f => pjoin suite_dir f
        | none => PYTHON_QUERIES_166_PATH
      else PYTHON_QUERIES_166_PATH
    else
      let py := pjoin (pjoin (CODEQL_REPO env) "codeql") "python-queries"
      if fs.isdir py then
        let q := pjoin (pjoin py "codeql-suites") "python-code-scanning.qls"
        if fs.pathExists q then q else py
      else "codeql/python-queries:codeql-suites/python-code-scanning.qls"
  else if lang = "cpp" || lang = "c" then
    let cpp := pjoin (pjoin (CODEQL_REPO env) "codeql") "cpp-queries"
    if fs.isdir cpp then
      let q := pjoin (pjoin cpp "codeql-suites") "cpp-security-and-quality.qls"
      if fs.pathExists q then q else cpp
    else "codeql/cpp-queries"
  else if lang = "csharp" then
    let cs := pjoin (pjoin (CODEQL_REPO env) "codeql") "csharp-queries"
    if fs.isdir cs then
      let q := pjoin (pjoin cs "codeql-suites")
        "csharp-security-and-quality.qls"
      if fs.pathExists q then q else cs
    else "codeql/csharp-queries"
  else "codeql/" ++ lang ++ "-queries"

/-! ## Engine invoker (`run_command`, `run_codeql_analysis`,
app.py lines 34-46 and 137-180) -/

/-- The behaviour of one subprocess invocation, as seen by `run_command`'s
`try` block: normal completion with an exit triple, a
`subprocess.TimeoutExpired`, or any other exception. -/
inductive ProcBehavior where
  | completed (code : Int) (out err : String)
  | timedOut
  | raised (msg : String)

/-- `run_command` (app.py lines 34-46): returns
`(proc.returncode, proc.stdout, proc.stderr)` on completion,
`(-2, "", "命令执行超时")` on timeout, `(-1, "", str(e))` otherwise. -/
def run_command : ProcBehavior → Int × String × String
  | .completed code out err => (code, out, err)
  | .timedOut => (-2, "", "命令执行超时")
  | .raised msg => (-1, "", msg)

/-- The terminal outcome of `run_codeql_analysis`: the returned result
path on success, or the `Exception` message it raises. -/
inductive ScanResult where
  | success (resultPath : String)
  | dbCreateFailed (msg : String)
  | analysisFailed (msg : String)
  deriving DecidableEq

/-- One engine invocation in the trace of a scan, tagged by whether it
came from a `database create` or a `database analyze` call site. -/
inductive EngineCall where
  | create (cmd : String)
  | analyze (cmd : String)
  deriving DecidableEq

def EngineCall.isCreate : EngineCall → Bool
  | .create _ => true
  | .analyze _ => false

def EngineCall.cmd : EngineCall → String
  | .create c => c
  | .analyze c => c

/-- The creation commands of a trace, in order. -/
def createCmds (calls : List EngineCall) : List String :=
  (calls.filter EngineCall.isCreate).map EngineCall.cmd

/-- The analysis commands of a trace, in order. -/
def analyzeCmds (calls : List EngineCall) : List String :=
  (calls.filter (fun c => !c.isCreate)).map EngineCall.cmd

/-- `base_args` (app.py line 146). -/
def baseArgs (tree : SourceTree) (lang : String) : String :=
  quote CODEQL_PATH ++ " database create " ++
    quote (pjoin tree.path "codeql_db") ++ " --language=" ++ lang ++
    " --source-root=" ++ quote tree.path ++ " --overwrite"

/-- The first creation command (app.py lines 149-152): `base_args` plus
`--command="{build_cmd}"` unless the language is python or javascript. -/
def cmdCreateFirst (tree : SourceTree) (lang : String) : String :=
  if lang = "python" || lang = "javascript" then baseArgs tree lang
  else baseArgs tree lang ++ " --command=" ++ quote (get_build_command tree lang)

/-- The persisted file name (app.py line 163):
`result_{os.path.basename(src_dir)}_{lang}.sarif`. -/
def resultFileName (srcDir lang : String) : String :=
  "result_" ++ baseName srcDir ++ "_" ++ lang ++ ".sarif"

/-- `result_path` (app.py line 163). -/
def result_path (tree : SourceTree) (lang : String) : String :=
  pjoin RESULT_DIR (resultFileName tree.path lang)

/-- The analysis command (app.py lines 164-170).  The first two branches
produce the same quoted string; the symbolic-name branch is unquoted. -/
def cmdAnalyze (env : Env) (fs : Fs) (tree : SourceTree) (lang : String) :
    String :=
  let query := get_query_suite env fs lang
  let pre := quote CODEQL_PATH ++ " database analyze " ++
    quote (pjoin tree.path "codeql_db") ++
    " --format=sarif-latest --output=" ++ quote (result_path tree lang) ++ " "
  if fs.pathExists query && strEndsWith query ".qls" then pre ++ quote query
  else if fs.isdir query then pre ++ quote query
  else pre ++ query

/-- The analysis phase of `run_codeql_analysis` (app.py lines 162-180),
entered once the database exists; `k` is the index of the next engine
invocation and `done` the creation calls already issued. -/
def analysisPhase (env : Env) (fs : Fs) (tree : SourceTree) (lang : String)
    (engine : Nat → ProcBehavior) (k : Nat) (done : List EngineCall) :
    ScanResult × List EngineCall :=
  let ca := cmdAnalyze env fs tree lang
  let r := run_command (engine k)
  if r.1 ≠ 0 then
    (.analysisFailed
      ("分析失败:\nSTDOUT:" ++ r.2.1 ++ "\nSTDERR:" ++ r.2.2),
     done ++ [.analyze ca])
  else
    (.success (result_path tree lang), done ++ [.analyze ca])

/-- `run_codeql_analysis` (app.py lines 137-180), returning both the
outcome and the trace of engine invocations.  The `engine` oracle gives
the behaviour of the k-th subprocess call of this scan.  (When the
analysis succeeds but produced no output file, the code synthesizes an
empty SARIF document at `result_path` and still returns that path; the
returned value is the same either way.) -/
def run_codeql_analysis (env : Env) (fs : Fs) (tree : SourceTree)
    (lang : String) (engine : Nat → ProcBehavior) :
    ScanResult × List EngineCall :=
  let cmd1 := cmdCreateFirst tree lang
  let r0 := run_command (engine 0)
  if r0.1 ≠ 0 then
    -- fallback: the creation command without the build command
    let cmd2 := baseArgs tree lang
    let r1 := run_command (engine 1)
    if r1.1 ≠ 0 then
      (.dbCreateFailed
        ("数据库创建失败:\nSTDOUT:" ++ r1.2.1 ++ "\nSTDERR:" ++ r1.2.2),
       [.create cmd1, .create cmd2])
    else analysisPhase env fs tree lang engine 2 [.create cmd1, .create cmd2]
  else analysisPhase env fs tree lang engine 1 [.create cmd1]

/-- The per-request source directory of the `analyze` route
(app.py line 251): `src = os.path.join(tmp, "src")`. -/
def analyzeSrcDir (tmp : String) : String := pjoin tmp "src"

/-! ## Result normalizer (`parse_sarif`, app.py lines 182-218) -/

/-- `region` object: an optional `startLine` (a line number). -/
structure SarifRegion where
  startLine : Option Nat
  deriving DecidableEq

/-- `artifactLocation` object: an optional `uri`. -/
structure ArtifactLocation where
  uri : Option String
  deriving DecidableEq

/-- `physicalLocation` object. -/
structure PhysicalLocation where
  artifactLocation : Option ArtifactLocation
  region : Option SarifRegion
  deriving DecidableEq

/-- One entry of a result's `locations` array. -/
structure SarifLocation where
  physicalLocation : Option PhysicalLocation
  deriving DecidableEq

/-- `message` object: an optional `text`. -/
structure SarifMessage where
  text : Option String
  deriving DecidableEq

/-- One raw result of a run. -/
structure SarifResult where
  ruleId : Option String
  message : Option SarifMessage
  level : Option String
  locations : List SarifLocation
  deriving DecidableEq

/-- One run of a SARIF document (`run.get("results", [])`). -/
structure SarifRun where
  results : List SarifResult
  deriving DecidableEq

/-- A persisted result document: either well-formed structured data
(`data.get("runs", [])`), or a document whose reading/decoding raises —
the `except` branch of `parse_sarif`. -/
inductive SarifDoc where
  | ok (runs : List SarifRun)
  | malformed
  deriving DecidableEq

/-- The normalized record appended for each raw result
(the dict of app.py lines 208-214). -/
structure Finding where
  rule : String
  level : String
  file : String
  line : String
  message : String
  deriving DecidableEq

/-- `str(start_line)` where `start_line` is
`phys.get("region", {}).get("startLine", "")`: the decimal string of the
line number, or `str("") = ""` when it is absent. -/
def lineStr : Option Nat → String
  | some n => toString n
  | none => ""

/-- The body of the inner loop of `parse_sarif` (app.py lines 189-214)
for one raw result. -/
def parseResult (r : SarifResult) : Finding :=
  let rule_id := r.ruleId.getD "unknown"
  let msg := match r.message with
    | none => ""
    | some m => m.text.getD ""
  let locPair : String × String :=
    match r.locations with
    | [] => ("-", "-")
    | loc :: _ =>
      let phys := loc.physicalLocation.getD ⟨none, none⟩
      let uri := (phys.artifactLocation.getD ⟨none⟩).uri.getD ""
      let start_line := (phys.region.getD ⟨none⟩).startLine
      if uri = "" then ("-", "-") else (uri, lineStr start_line)
  let level := r.level.getD "warning"
  { rule := rule_id, level := level,
    file := locPair.1, line := locPair.2, message := msg }

/-- `parse_sarif` (app.py lines 182-218): the nested append loop over
runs and results; a document that raises yields `[]`. -/
def parse_sarif (d : SarifDoc) : List Finding :=
  match d with
  | .malformed => []
  | .ok runs =>
    runs.foldl
      (fun acc run =>
        run.results.foldl (fun acc2 r => acc2 ++ [parseResult r]) acc)
      []

/-! ## Aggregator (`get_dashboard_stats`, app.py lines 357-405) -/

/-- The `stats` dictionary while the loop runs: `top_vulns` is the
insertion-ordered rule-frequency dict. -/
structure StatsAcc where
  total_scans : Nat
  total_vulns : Nat
  sev_error : Nat
  sev_warning : Nat
  sev_note : Nat
  top_vulns : List (String × Nat)
  deriving DecidableEq

/-- The severity bucketing of one finding (app.py lines 385-388). -/
def bumpSeverity (s : StatsAcc) (level : String) : StatsAcc :=
  let lv := lowerAscii level
  if strContainsSub lv "error" then { s with sev_error := s.sev_error + 1 }
  else if strContainsSub lv "warn" then
    { s with sev_warning := s.sev_warning + 1 }
  else { s with sev_note := s.sev_note + 1 }

/-- The loop body for one finding (app.py lines 383-392). -/
def foldFinding (s : StatsAcc) (r : Finding) : StatsAcc :=
  let s1 := bumpSeverity s r.level
  let rule_name := lastSegment r.rule
  { s1 with top_vulns := bump s1.top_vulns rule_name }

/-- The loop body for one document (app.py lines 373-395): parse it,
skip it when the finding list is empty, otherwise add the finding count
to `total_vulns` and fold every finding. -/
def foldDoc (s : StatsAcc) (d : SarifDoc) : StatsAcc :=
  let results := parse_sarif d
  if results.isEmpty then s
  else
    results.foldl foldFinding
      { s with total_vulns := s.total_vulns + results.length }

/-- Stable descending insertion by count: the behaviour of
`sorted(items, key=lambda x: x[1], reverse=True)`. -/
def insertDesc (x : String × Nat) : List (String × Nat) →
    List (String × Nat)
  | [] => [x]
  | y :: t => if x.2 ≥ y.2 then x :: y :: t else y :: insertDesc x t

/-- `sorted(..., key=lambda x: x[1], reverse=True)` (stable). -/
def sortDescByCount (l : List (String × Nat)) : List (String × Nat) :=
  l.foldr insertDesc []

/-- The response of `/api/stats` after `top_vulns` is reduced to the
top-5 chart and deleted (app.py lines 397-405). -/
structure DashboardStats where
  total_scans : Nat
  total_vulns : Nat
  sev_error : Nat
  sev_warning : Nat
  sev_note : Nat
  chart_labels : List String
  chart_data : List Nat
  deriving DecidableEq

/-- `get_dashboard_stats` (app.py lines 357-405) over the list of
persisted `.sarif` documents (`total_scans = len(files)` is set before
the loop). -/
def get_dashboard_stats (docs : List SarifDoc) : DashboardStats :=
  let s0 : StatsAcc :=
    { total_scans := docs.length, total_vulns := 0,
      sev_error := 0, sev_warning := 0, sev_note := 0, top_vulns := [] }
  let s := docs.foldl foldDoc s0
  let sorted_vulns := (sortDescByCount s.top_vulns).take 5
  { total_scans := s.total_scans, total_vulns := s.total_vulns,
    sev_error := s.sev_error, sev_warning := s.sev_warning,
    sev_note := s.sev_note,
    chart_labels := sorted_vulns.map Prod.fst,
    chart_data := sorted_vulns.map Prod.snd }

/-! ## Sample concrete values used by witnesses and counterexamples -/

def sampleEnv : Env := ⟨"C:\\Users\\u"⟩

def sampleFs : Fs := ⟨fun _ => false, fun _ => false, fun _ => []⟩

def sampleTree : SourceTree := ⟨"D:\\tmpdir\\src", false, ["main.py"]⟩

def sampleJavaTree : SourceTree := ⟨"D:\\tmpdir\\src", false, ["A.java"]⟩

/-! ## Helper lemmas about the string/path model -/

theorem rfind_ge_neg_one (c : Char) (l : List Char) : -1 ≤ rfind c l := by
  induction l with
  | nil => simp [rfind]
  | cons x t ih =>
    simp only [rfind]
    split
    · omega
    · split <;> omega

theorem rfind_lt_length (c : Char) (l : List Char) :
    rfind c l < (l.length : Int) := by
  induction l with
  | nil => simp [rfind]
  | cons x t ih =>
    simp only [rfind, List.length_cons]
    split
    · push_cast; omega
    · split <;> (push_cast; omega)

theorem rfind_append (c : Char) (l1 l2 : List Char) :
    rfind c (l1 ++ l2) =
      if rfind c l2 ≥ 0 then (l1.length : Int) + rfind c l2
      else rfind c l1 := by
  induction l1 with
  | nil =>
    have := rfind_ge_neg_one c l2
    simp only [List.nil_append, List.length_nil, Nat.cast_zero]
    by_cases h : rfind c l2 ≥ 0
    · rw [if_pos h]; omega
    · rw [if_neg h]; simp only [rfind]; omega
  | cons x t ih =>
    simp only [List.cons_append, rfind, List.length_cons, List.append_eq]
    rw [ih]
    by_cases h : rfind c l2 ≥ 0
    · simp only [if_pos h]
      have h2 := rfind_ge_neg_one c l2
      have hpos : ((t.length : Int) + rfind c l2) ≥ 0 := by omega
      rw [if_pos hpos]
      push_cast
      omega
    · simp only [if_neg h]

theorem baseName_pjoin_src (tmp : String) : baseName (pjoin tmp "src") = "src" := by
  obtain ⟨l⟩ := tmp
  have hdata : (pjoin ⟨l⟩ "src").data = l ++ ('\\' :: 's' :: 'r' :: 'c' :: []) := by
    simp [pjoin, String.data_append]
  unfold baseName
  rw [hdata]
  have e1 : rfind '\\' ('\\' :: 's' :: 'r' :: 'c' :: []) = 0 := by decide
  have e2 : rfind '/' ('\\' :: 's' :: 'r' :: 'c' :: []) = -1 := by decide
  have h1 : rfind '\\' (l ++ ('\\' :: 's' :: 'r' :: 'c' :: [])) = (l.length : Int) := by
    rw [rfind_append, e1]
    norm_num
  have h2 : rfind '/' (l ++ ('\\' :: 's' :: 'r' :: 'c' :: [])) = rfind '/' l := by
    rw [rfind_append, e2]
    norm_num
  rw [h1, h2]
  have h3 : rfind '/' l < (l.length : Int) := rfind_lt_length '/' l
  have h4 : max (l.length : Int) (rfind '/' l) = (l.length : Int) :=
    max_eq_left (le_of_lt h3)
  rw [h4]
  have h5 : ((l.length : Int) + 1).toNat = l.length + 1 := by omega
  rw [h5]
  have h6 : ∀ (m : List Char) (L2 : List Char),
      List.drop (m.length + 1) (m ++ L2) = List.drop 1 L2 := by
    intro m
    induction m with
    | nil => intro L2; rfl
    | cons x t ih =>
      intro L2
      simp only [List.length_cons, List.cons_append]
      rw [List.drop_succ_cons]
      exact ih L2
  rw [h6]
  decide

/-! ## Helper lemmas about the engine-invocation trace -/

theorem createCmds_append (a b : List EngineCall) :
    createCmds (a ++ b) = createCmds a ++ createCmds b := by
  simp [createCmds, List.filter_append]

theorem analyzeCmds_append (a b : List EngineCall) :
    analyzeCmds (a ++ b) = analyzeCmds a ++ analyzeCmds b := by
  simp [analyzeCmds, List.filter_append]

theorem analysisPhase_trace (env : Env) (fs : Fs) (tree : SourceTree)
    (lang : String) (engine : Nat → ProcBehavior) (k : Nat)
    (done : List EngineCall) :
    (analysisPhase env fs tree lang engine k done).2 =
      done ++ [.analyze (cmdAnalyze env fs tree lang)] := by
  unfold analysisPhase
  by_cases h : (run_command (engine k)).1 ≠ 0 <;> simp [h]

theorem analysisPhase_result (env : Env) (fs : Fs) (tree : SourceTree)
    (lang : String) (engine : Nat → ProcBehavior) (k : Nat)
    (done : List EngineCall) :
    (analysisPhase env fs tree lang engine k done).1 =
      if (run_command (engine k)).1 ≠ 0 then
        .analysisFailed ("分析失败:\nSTDOUT:" ++ (run_command (engine k)).2.1 ++
          "\nSTDERR:" ++ (run_command (engine k)).2.2)
      else .success (result_path tree lang) := by
  unfold analysisPhase
  by_cases h : (run_command (engine k)).1 ≠ 0 <;> simp [h]

/-! ## Claim C1: database-creation retry policy -/

/-- C1 counterexample.  The claim says that when a BuildPlan was supplied
(a compiled language — here java, whose creation command carries
`--command="..."`), a non-zero exit of the creation command is FATAL and
no retry occurs.  In the code the creation is retried for every
language: with the first invocation failing and the second succeeding,
the scan issues two creation commands and completes successfully instead
of failing fatally. -/
theorem create_retry_c1_counterexample :
    (createCmds (run_codeql_analysis sampleEnv sampleFs sampleJavaTree "java"
      (fun k => if k = 0 then .completed 1 "" "build failed"
                else .completed 0 "" "")).2).length = 2 ∧
    (run_codeql_analysis sampleEnv sampleFs sampleJavaTree "java"
      (fun k => if k = 0 then .completed 1 "" "build failed"
                else .completed 0 "" "")).1 =
      .success "D:\\NetworkSecurity\\project\\results\\result_src_java.sarif" := by
  constructor <;> decide

/-- C1 (amended): for every language — compiled or interpreted — and
every engine behaviour, the creation commands of a scan are exactly the
first creation command when it exits zero, and otherwise the first
command followed by exactly one retry that re-issues `base_args` without
the `--command` build parameter; at most two creation invocations ever
occur; a failure of the retry is FATAL (`DatabaseCreationFailure`); and
for the interpreted path (python/javascript) the retried command equals
the original creation command unmodified. -/
theorem create_retry_policy (env : Env) (fs : Fs) (tree : SourceTree)
    (lang : String) (engine : Nat → ProcBehavior) :
    createCmds (run_codeql_analysis env fs tree lang engine).2 =
      (if (run_command (engine 0)).1 = 0 then [cmdCreateFirst tree lang]
       else [cmdCreateFirst tree lang, baseArgs tree lang]) ∧
    (createCmds (run_codeql_analysis env fs tree lang engine).2).length ≤ 2 ∧
    ((run_command (engine 0)).1 ≠ 0 → (run_command (engine 1)).1 ≠ 0 →
      (run_codeql_analysis env fs tree lang engine).1 =
        ScanResult.dbCreateFailed ("数据库创建失败:\nSTDOUT:" ++
          (run_command (engine 1)).2.1 ++ "\nSTDERR:" ++
          (run_command (engine 1)).2.2)) ∧
    ((lang = "python" ∨ lang = "javascript") →
      cmdCreateFirst tree lang = baseArgs tree lang) := by
  have hfirst : (lang = "python" ∨ lang = "javascript") →
      cmdCreateFirst tree lang = baseArgs tree lang := by
    intro hlang
    rcases hlang with h | h <;> simp [cmdCreateFirst, h]
  unfold run_codeql_analysis
  by_cases h0 : (run_command (engine 0)).1 = 0
  · have h0' : ¬ (run_command (engine 0)).1 ≠ 0 := not_not_intro h0
    simp only [if_neg h0']
    rw [analysisPhase_trace]
    refine ⟨?_, ?_, fun hc _ => absurd h0 hc, hfirst⟩
    · rw [if_pos h0]
      simp [createCmds_append, createCmds, EngineCall.isCreate,
        EngineCall.cmd]
    · simp [createCmds_append, createCmds, EngineCall.isCreate]
  · simp only [if_pos h0]
    by_cases h1 : (run_command (engine 1)).1 = 0
    · have h1' : ¬ (run_command (engine 1)).1 ≠ 0 := not_not_intro h1
      simp only [if_neg h1']
      rw [analysisPhase_trace]
      refine ⟨?_, ?_, fun _ hc => absurd h1 hc, hfirst⟩
      · rw [if_neg h0]
        simp [createCmds_append, createCmds, EngineCall.isCreate,
          EngineCall.cmd]
      · simp [createCmds_append, createCmds, EngineCall.isCreate]
    · simp only [if_pos h1]
      refine ⟨?_, ?_, fun _ _ => by trivial, hfirst⟩
      · rw [if_neg h0]
        simp [createCmds, EngineCall.isCreate, EngineCall.cmd]
      · simp [createCmds, EngineCall.isCreate]

/-- C1 witness: the theorem applied at a concrete interpreted (python)
scan whose two creation invocations both fail, discharging both failure
hypotheses and the interpreted-language hypothesis. -/
theorem create_retry_policy_witness :
    createCmds (run_codeql_analysis sampleEnv sampleFs sampleTree "python"
      (fun _ => .completed 1 "" "e")).2 =
      [cmdCreateFirst sampleTree "python", baseArgs sampleTree "python"] ∧
    (run_codeql_analysis sampleEnv sampleFs sampleTree "python"
      (fun _ => .completed 1 "" "e")).1 =
      .dbCreateFailed "数据库创建失败:\nSTDOUT:\nSTDERR:e" ∧
    cmdCreateFirst sampleTree "python" = baseArgs sampleTree "python" := by
  have h := create_retry_policy sampleEnv sampleFs sampleTree "python"
    (fun _ => .completed 1 "" "e")
  refine ⟨h.1.trans (by decide), ?_, h.2.2.2 (Or.inl rfl)⟩
  have h3 := h.2.2.1 (by decide) (by decide)
  exact h3.trans (by decide)

/-! ## Claim C2: analysis fallback policy -/

/-- C2 counterexample.  The claim says that on analysis failure exactly
one fallback invocation with a secondary "code-scanning" suite is
attempted before declaring fatal failure.  In the code there is no
fallback at all: with the creation succeeding and the analysis exiting
non-zero, the scan fails fatally after a single analysis invocation. -/
theorem analysis_fallback_c2_counterexample :
    (run_codeql_analysis sampleEnv sampleFs sampleTree "python"
      (fun k => if k = 0 then .completed 0 "" ""
                else .completed 2 "ao" "ae")).1 =
      .analysisFailed "分析失败:\nSTDOUT:ao\nSTDERR:ae" ∧
    (analyzeCmds (run_codeql_analysis sampleEnv sampleFs sampleTree "python"
      (fun k => if k = 0 then .completed 0 "" ""
                else .completed 2 "ao" "ae")).2).length = 1 := by
  constructor <;> decide

/-- The invocation index at which the single analysis command runs,
given the engine behaviours: 1 when the first creation succeeds, 2 after
the creation retry. -/
def analysisIdx (engine : Nat → ProcBehavior) : Nat :=
  if (run_command (engine 0)).1 = 0 then 1 else 2

/-- C2 (amended): no fallback analysis invocation exists.  For every
language and engine behaviour, at most one analysis invocation occurs
per scan — none when both creation attempts fail, exactly one
otherwise — so a second or third analysis attempt never occurs; and
whenever the database was created (directly or via the creation retry),
a non-zero exit of that single analysis invocation immediately makes the
scan a fatal `AnalysisFailure`. -/
theorem analysis_no_fallback (env : Env) (fs : Fs) (tree : SourceTree)
    (lang : String) (engine : Nat → ProcBehavior) :
    (analyzeCmds (run_codeql_analysis env fs tree lang engine).2).length ≤ 1 ∧
    analyzeCmds (run_codeql_analysis env fs tree lang engine).2 =
      (if (run_command (engine 0)).1 ≠ 0 ∧ (run_command (engine 1)).1 ≠ 0
       then ([] : List String)
       else [cmdAnalyze env fs tree lang]) ∧
    (((run_command (engine 0)).1 = 0 ∨ (run_command (engine 1)).1 = 0) →
      (run_command (engine (analysisIdx engine))).1 ≠ 0 →
      (run_codeql_analysis env fs tree lang engine).1 =
        ScanResult.analysisFailed ("分析失败:\nSTDOUT:" ++
          (run_command (engine (analysisIdx engine))).2.1 ++ "\nSTDERR:" ++
          (run_command (engine (analysisIdx engine))).2.2)) := by
  unfold run_codeql_analysis
  by_cases h0 : (run_command (engine 0)).1 = 0
  · have h0' : ¬ (run_command (engine 0)).1 ≠ 0 := not_not_intro h0
    have hidx : analysisIdx engine = 1 := by simp [analysisIdx, h0]
    simp only [if_neg h0']
    refine ⟨?_, ?_, ?_⟩
    · rw [analysisPhase_trace]
      simp [analyzeCmds_append, analyzeCmds, EngineCall.isCreate]
    · rw [analysisPhase_trace]
      have hcond : ¬ ((run_command (engine 0)).1 ≠ 0 ∧
          (run_command (engine 1)).1 ≠ 0) := fun hc => hc.1 h0
      rw [if_neg hcond]
      simp [analyzeCmds_append, analyzeCmds, EngineCall.isCreate,
        EngineCall.cmd]
    · intro _ hfail
      rw [hidx] at hfail
      rw [analysisPhase_result, hidx, if_pos hfail]
  · by_cases h1 : (run_command (engine 1)).1 = 0
    · have h1' : ¬ (run_command (engine 1)).1 ≠ 0 := not_not_intro h1
      have hidx : analysisIdx engine = 2 := by simp [analysisIdx, h0]
      simp only [if_pos h0, if_neg h1']
      refine ⟨?_, ?_, ?_⟩
      · rw [analysisPhase_trace]
        simp [analyzeCmds_append, analyzeCmds, EngineCall.isCreate]
      · rw [analysisPhase_trace]
        have hcond : ¬ ((run_command (engine 0)).1 ≠ 0 ∧
            (run_command (engine 1)).1 ≠ 0) := fun hc => hc.2 h1
        rw [if_neg hcond]
        simp [analyzeCmds_append, analyzeCmds, EngineCall.isCreate,
          EngineCall.cmd]
      · intro _ hfail
        rw [hidx] at hfail
        rw [analysisPhase_result, hidx, if_pos hfail]
    · simp only [if_pos h0, if_pos h1]
      refine ⟨?_, ?_, ?_⟩
      · simp [analyzeCmds, EngineCall.isCreate]
      · have hcond : (run_command (engine 0)).1 ≠ 0 ∧
            (run_command (engine 1)).1 ≠ 0 := ⟨h0, h1⟩
        rw [if_pos hcond]
        simp [analyzeCmds, EngineCall.isCreate]
      · intro hor _
        rcases hor with h | h
        · exact absurd h h0
        · exact absurd h h1

set_option maxRecDepth 8000 in
/-- C2 witness: the theorem at a concrete scan whose single analysis
invocation fails, discharging the database-created and
analysis-failure hypotheses. -/
theorem analysis_no_fallback_witness :
    analyzeCmds (run_codeql_analysis sampleEnv sampleFs sampleTree "python"
      (fun k => if k = 0 then .completed 0 "" ""
                else .completed 2 "ao" "ae")).2 =
      [cmdAnalyze sampleEnv sampleFs sampleTree "python"] ∧
    (run_codeql_analysis sampleEnv sampleFs sampleTree "python"
      (fun k => if k = 0 then .completed 0 "" ""
                else .completed 2 "ao" "ae")).1 =
      .analysisFailed "分析失败:\nSTDOUT:ao\nSTDERR:ae" := by
  have h := analysis_no_fallback sampleEnv sampleFs sampleTree "python"
    (fun k => if k = 0 then .completed 0 "" "" else .completed 2 "ao" "ae")
  refine ⟨h.2.1.trans (by decide), ?_⟩
  have h3 := h.2.2 (Or.inl (by decide)) (by decide)
  exact h3.trans (by decide)

/-! ## Claim C3: uniqueness and information content of the persisted
filename -/

/-- C3.  The persisted filename is
`result_{os.path.basename(src_dir)}_{lang}.sarif`, but the `analyze`
route always stores the upload under `os.path.join(tmp, "src")`, so the
basename is the constant `"src"` for every scan: the filename depends
only on the language.  Two scans of different projects (or repeated
scans of one project) in the same language write the same file, and
neither the project name nor the creation time can be recovered from the
name — contradicting the claim (and the code's own comment
`result_项目名_语言.sarif` in `/api/history`, which expects the project
name in the second underscore field). -/
theorem result_filename_not_unique (tmp1 tmp2 lang : String) :
    resultFileName (analyzeSrcDir tmp1) lang =
      "result_src_" ++ lang ++ ".sarif" ∧
    resultFileName (analyzeSrcDir tmp1) lang =
      resultFileName (analyzeSrcDir tmp2) lang := by
  unfold resultFileName analyzeSrcDir
  rw [baseName_pjoin_src, baseName_pjoin_src]
  constructor
  · rfl
  · rfl

/-! ## Claim C4: build strategy resolver -/

/-- C4 counterexample.  The claim says every compiled language gets
either a manifest-driven build command or a naive compiler-CLI fallback
over its listed source files, with a no-op placeholder only when no
files are found.  For C++ — a compiled language with source files
present — the code returns the generic `echo No build needed`
placeholder (the same value the interpreted languages get), not a
compiler invocation. -/
theorem build_strategy_c4_counterexample :
    (["main.cpp", "util.cpp"].filter (fun f => strEndsWith f ".cpp")) ≠ [] ∧
    get_build_command ⟨"D:\\t\\src", false, ["main.cpp", "util.cpp"]⟩ "cpp" =
      "echo No build needed" := by
  constructor <;> decide

/-- C4 (amended): only java has manifest/fallback build logic
(`pom.xml` → Maven; otherwise `javac` over the walked `.java` files, or
`echo No Java` when there are none).  Every other language — compiled
(cpp, csharp, go) or interpreted (ruby) alike — resolves to the
placeholder `echo No build needed`, and the creation command attaches a
`--command` build parameter for every language except python and
javascript, so that placeholder is even passed to the engine for ruby
and for compiled languages without specific support. -/
theorem build_strategy_resolver (tree : SourceTree) (lang : String)
    (h : lang ≠ "java") (h2 : lang ≠ "python") (h3 : lang ≠ "javascript") :
    get_build_command tree lang = "echo No build needed" ∧
    cmdCreateFirst tree lang =
      baseArgs tree lang ++ " --command=" ++ quote "echo No build needed" ∧
    get_build_command tree "java" =
      (if tree.hasPomXml then "mvn clean compile -DskipTests -Dmaven.test.skip=true"
       else if (tree.files.filter (fun f => strEndsWith f ".java")).isEmpty then
         "echo No Java"
       else "javac -encoding UTF-8 " ++
         String.intercalate " " (tree.files.filter (fun f => strEndsWith f ".java"))) := by
  have hb : get_build_command tree lang = "echo No build needed" := by
    simp [get_build_command, h]
  refine ⟨hb, ?_, ?_⟩
  · simp [cmdCreateFirst, h2, h3, hb]
  · by_cases hp : tree.hasPomXml <;>
      by_cases hf : (tree.files.filter (fun f => strEndsWith f ".java")).isEmpty <;>
      simp [get_build_command, has_maven_project, hp, hf]

/-- C4 witness: the amended theorem at ruby, an interpreted language
that nevertheless receives the placeholder as a build command. -/
theorem build_strategy_resolver_witness :
    get_build_command ⟨"D:\\t\\src", false, ["app.rb"]⟩ "ruby" =
      "echo No build needed" ∧
    cmdCreateFirst ⟨"D:\\t\\src", false, ["app.rb"]⟩ "ruby" =
      baseArgs ⟨"D:\\t\\src", false, ["app.rb"]⟩ "ruby" ++ " --command=" ++
        quote "echo No build needed" := by
  have h := build_strategy_resolver ⟨"D:\\t\\src", false, ["app.rb"]⟩ "ruby"
    (by decide) (by decide) (by decide)
  exact ⟨h.1, h.2.1⟩

/-! ## Claim C5: timeout as a distinct failure kind -/

/-- C5 counterexample.  The claim says a timed-out invocation is
reported to the caller distinctly from a generic non-zero-exit failure.
In the code both end in the very same generic outcome — the same
`Exception` constructor raised by `run_codeql_analysis` (modelled as
`ScanResult.analysisFailed`) — with the timeout visible only inside the
interpolated stderr text. -/
theorem timeout_folded_c5_counterexample :
    (run_codeql_analysis sampleEnv sampleFs sampleTree "python"
      (fun k => if k = 0 then .completed 0 "" "" else .timedOut)).1 =
      .analysisFailed "分析失败:\nSTDOUT:\nSTDERR:命令执行超时" ∧
    (run_codeql_analysis sampleEnv sampleFs sampleTree "python"
      (fun k => if k = 0 then .completed 0 "" ""
                else .completed 1 "" "generic error")).1 =
      .analysisFailed "分析失败:\nSTDOUT:\nSTDERR:generic error" := by
  constructor <;> decide

/-- C5 (amended): `run_command` does map a timeout to the distinguished
triple `(-2, "", "命令执行超时")`, but `run_codeql_analysis` folds every
non-zero code — the timeout code included — into the same generic
failure outcome, so what reaches the caller is the ordinary
database-creation/analysis failure whose message merely embeds the
timeout text. -/
theorem timeout_generic_outcome (env : Env) (fs : Fs) (tree : SourceTree)
    (lang : String) :
    run_command .timedOut = (-2, "", "命令执行超时") ∧
    (run_codeql_analysis env fs tree lang
      (fun k => if k = 0 then .completed 0 "" "" else .timedOut)).1 =
      .analysisFailed "分析失败:\nSTDOUT:\nSTDERR:命令执行超时" := by
  refine ⟨rfl, ?_⟩
  unfold run_codeql_analysis
  simp only [run_command]
  norm_num
  rw [analysisPhase_result]
  norm_num [run_command]
  decide

/-! ## Helper lemmas for the result normalizer -/

theorem foldl_append_map {α β : Type} (f : α → β) (l : List α)
    (acc : List β) :
    l.foldl (fun a x => a ++ [f x]) acc = acc ++ l.map f := by
  induction l generalizing acc with
  | nil => simp
  | cons x t ih => simp [ih]

theorem parse_sarif_ok (runs : List SarifRun) :
    parse_sarif (SarifDoc.ok runs) =
      ((runs.map SarifRun.results).flatten).map parseResult := by
  have hfun :
      (fun (acc : List Finding) (run : SarifRun) =>
        run.results.foldl (fun acc2 r => acc2 ++ [parseResult r]) acc) =
      (fun acc run => acc ++ run.results.map parseResult) := by
    funext acc run
    exact foldl_append_map parseResult run.results acc
  show runs.foldl
      (fun acc run =>
        run.results.foldl (fun acc2 r => acc2 ++ [parseResult r]) acc) []
    = ((runs.map SarifRun.results).flatten).map parseResult
  rw [hfun]
  suffices h : ∀ acc : List Finding,
      runs.foldl (fun acc run => acc ++ run.results.map parseResult) acc
        = acc ++ ((runs.map SarifRun.results).flatten).map parseResult by
    simpa using h []
  induction runs with
  | nil => intro acc; simp
  | cons run t ih =>
    intro acc
    simp [ih, List.append_assoc]

/-- Every digit character emitted by `Nat.digitChar` below base 10 is a
decimal digit. -/
theorem digitChar_isDigit (n : Nat) (h : n < 10) :
    (Nat.digitChar n).isDigit = true := by
  interval_cases n <;> decide

theorem toDigitsCore_digits (f : Nat) : ∀ (n : Nat) (ds : List Char),
    (∀ c ∈ ds, c.isDigit = true) →
    ∀ c ∈ Nat.toDigitsCore 10 f n ds, c.isDigit = true := by
  induction f with
  | zero =>
    intro n ds h c hc
    simp only [Nat.toDigitsCore] at hc
    exact h c hc
  | succ f ih =>
    intro n ds h c hc
    rw [Nat.toDigitsCore] at hc
    by_cases hn : n / 10 = 0
    · simp only [hn, if_pos] at hc
      rcases List.mem_cons.1 hc with hc | hc
      · subst hc
        exact digitChar_isDigit _ (Nat.mod_lt _ (by norm_num))
      · exact h c hc
    · simp only [hn, if_neg, if_false] at hc
      refine ih (n / 10) (Nat.digitChar (n % 10) :: ds) ?_ c hc
      intro c' hc'
      rcases List.mem_cons.1 hc' with hc' | hc'
      · subst hc'
        exact digitChar_isDigit _ (Nat.mod_lt _ (by norm_num))
      · exact h c' hc'

/-- The decimal string of a natural number is never the sentinel `"-"`. -/
theorem toString_nat_ne_dash (n : Nat) : toString n ≠ "-" := by
  intro h
  have hall : ∀ c ∈ Nat.toDigits 10 n, c.isDigit = true := by
    intro c hc
    exact toDigitsCore_digits (n + 1) n []
      (by intro c' hc'; cases hc') c hc
  have hdata : Nat.toDigits 10 n = ['-'] := by
    have h2 : (toString n).data = ("-" : String).data := by rw [h]
    exact h2
  have hdash : ('-' : Char).isDigit = true := by
    refine hall '-' ?_
    rw [hdata]
    exact List.mem_singleton_self _
  simp at hdash

/-- `lineStr` never produces the `"-"` sentinel: it is either the empty
string (missing `startLine`) or a decimal numeral. -/
theorem lineStr_ne_dash (sl : Option Nat) : lineStr sl ≠ "-" := by
  cases sl with
  | none => simp [lineStr]
  | some n => simpa [lineStr] using toString_nat_ne_dash n

/-! ## Claim C6: totality and field policy of the normalizer -/

/-- C6 (confirmed).  `parse_sarif` on a well-formed document is the map
of `parseResult` over the concatenated results of all runs, so every raw
result yields exactly one Finding (the count is the sum of the run
sizes) and none is dropped; `parseResult` uses default `"unknown"` for a
missing rule id, `""` for a missing message text, `"warning"` for a
missing level, consumes only the first location entry (any further
entries are ignored), and produces the `"-"`/`"-"` sentinels when there
is no location at all. -/
theorem normalizer_total (runs : List SarifRun) (r : SarifResult)
    (l : SarifLocation) (rest : List SarifLocation) :
    parse_sarif (SarifDoc.ok runs) =
      ((runs.map SarifRun.results).flatten).map parseResult ∧
    (parse_sarif (SarifDoc.ok runs)).length =
      ((runs.map fun run => run.results.length).sum) ∧
    (parseResult r).rule = r.ruleId.getD "unknown" ∧
    (parseResult r).message =
      (match r.message with
       | none => ""
       | some m => m.text.getD "") ∧
    (parseResult r).level = r.level.getD "warning" ∧
    parseResult { r with locations := l :: rest } =
      parseResult { r with locations := [l] } ∧
    (parseResult { r with locations := [] }).file = "-" ∧
    (parseResult { r with locations := [] }).line = "-" := by
  refine ⟨parse_sarif_ok runs, ?_, rfl, rfl, rfl, rfl, rfl, rfl⟩
  rw [parse_sarif_ok runs]
  simp [List.length_flatten, List.map_map, Function.comp_def, List.length_map]

/-! ## Claim C10: sentinel policy for file and line -/

/-- The first location's artifact URI is absent or empty (a missing first
location counts as an absent URI). -/
def firstUriMissing (r : SarifResult) : Bool :=
  match r.locations with
  | [] => true
  | loc :: _ =>
    ((loc.physicalLocation.getD ⟨none, none⟩).artifactLocation.getD
      ⟨none⟩).uri.getD "" == ""

/-- C10 (confirmed).  The `"-"` sentinel fills both the file and the
line field exactly when the first location's artifact URI is absent or
empty (including the case of no location entry at all); and when the URI
is present and non-empty but the location has no `startLine`, the line
field is `str("") = ""`, not the `"-"` sentinel. -/
theorem sentinel_exactly_no_uri (r : SarifResult) (loc : SarifLocation)
    (rest : List SarifLocation)
    (huri : ((loc.physicalLocation.getD ⟨none, none⟩).artifactLocation.getD
      ⟨none⟩).uri.getD "" ≠ "")
    (hline : ((loc.physicalLocation.getD ⟨none, none⟩).region.getD
      ⟨none⟩).startLine = none) :
    (((parseResult r).file = "-" ∧ (parseResult r).line = "-") ↔
      firstUriMissing r = true) ∧
    (parseResult { r with locations := loc :: rest }).file =
      ((loc.physicalLocation.getD ⟨none, none⟩).artifactLocation.getD
        ⟨none⟩).uri.getD "" ∧
    (parseResult { r with locations := loc :: rest }).line = "" := by
  refine ⟨?_, ?_, ?_⟩
  · rcases r with ⟨ri, m, lv, locs⟩
    cases locs with
    | nil => simp [parseResult, firstUriMissing]
    | cons l0 t =>
      by_cases hu :
          ((l0.physicalLocation.getD ⟨none, none⟩).artifactLocation.getD
            ⟨none⟩).uri.getD "" = ""
      · simp [parseResult, firstUriMissing, hu]
      · have hl := lineStr_ne_dash
          ((l0.physicalLocation.getD ⟨none, none⟩).region.getD
            ⟨none⟩).startLine
        simp [parseResult, firstUriMissing, hu]
        intro _ h2
        exact absurd h2 hl
  · simp [parseResult, huri]
  · simp [parseResult, huri, hline, lineStr]

/-- C10 witness: a result with a present URI and no `startLine` fills
`file` with the URI and `line` with the empty string; the sentinel
biconditional holds at that input. -/
theorem sentinel_exactly_no_uri_witness :
    (parseResult ⟨some "r", none, none,
      [⟨some ⟨some ⟨some "App.java"⟩, none⟩⟩]⟩).file = "App.java" ∧
    (parseResult ⟨some "r", none, none,
      [⟨some ⟨some ⟨some "App.java"⟩, none⟩⟩]⟩).line = "" := by
  have h := sentinel_exactly_no_uri
    ⟨some "r", none, none, [⟨some ⟨some ⟨some "App.java"⟩, none⟩⟩]⟩
    ⟨some ⟨some ⟨some "App.java"⟩, none⟩⟩ [] (by decide) (by decide)
  exact ⟨h.2.1, h.2.2⟩

/-! ## Helper lemmas for the aggregator -/

/-- Replace the `total_scans` field. -/
def withScans (s : StatsAcc) (n : Nat) : StatsAcc :=
  { total_scans := n, total_vulns := s.total_vulns, sev_error := s.sev_error,
    sev_warning := s.sev_warning, sev_note := s.sev_note,
    top_vulns := s.top_vulns }

theorem foldFinding_sevSum (s : StatsAcc) (r : Finding) :
    (foldFinding s r).sev_error + (foldFinding s r).sev_warning +
      (foldFinding s r).sev_note =
    s.sev_error + s.sev_warning + s.sev_note + 1 := by
  rcases s with ⟨ts, tv, se, sw, sn, tvl⟩
  unfold foldFinding bumpSeverity
  dsimp only
  split_ifs <;> (dsimp only; omega)

theorem foldFinding_total_vulns (s : StatsAcc) (r : Finding) :
    (foldFinding s r).total_vulns = s.total_vulns := by
  rcases s with ⟨ts, tv, se, sw, sn, tvl⟩
  unfold foldFinding bumpSeverity
  dsimp only
  split_ifs <;> rfl

theorem foldFinding_total_scans (s : StatsAcc) (r : Finding) :
    (foldFinding s r).total_scans = s.total_scans := by
  rcases s with ⟨ts, tv, se, sw, sn, tvl⟩
  unfold foldFinding bumpSeverity
  dsimp only
  split_ifs <;> rfl

theorem foldFinding_scans_commute (s : StatsAcc) (n : Nat) (r : Finding) :
    foldFinding (withScans s n) r = withScans (foldFinding s r) n := by
  rcases s with ⟨ts, tv, se, sw, sn, tvl⟩
  unfold foldFinding bumpSeverity withScans
  dsimp only
  split_ifs <;> rfl

theorem foldl_foldFinding_sevSum (rs : List Finding) :
    ∀ s : StatsAcc,
      (rs.foldl foldFinding s).sev_error +
        (rs.foldl foldFinding s).sev_warning +
        (rs.foldl foldFinding s).sev_note =
      s.sev_error + s.sev_warning + s.sev_note + rs.length := by
  induction rs with
  | nil => intro s; simp
  | cons r t ih =>
    intro s
    rw [List.foldl_cons]
    have h1 := ih (foldFinding s r)
    have h2 := foldFinding_sevSum s r
    simp only [List.length_cons]
    omega

theorem foldl_foldFinding_total_vulns (rs : List Finding) :
    ∀ s : StatsAcc, (rs.foldl foldFinding s).total_vulns = s.total_vulns := by
  induction rs with
  | nil => intro s; rfl
  | cons r t ih =>
    intro s
    rw [List.foldl_cons, ih, foldFinding_total_vulns]

theorem foldl_foldFinding_total_scans (rs : List Finding) :
    ∀ s : StatsAcc, (rs.foldl foldFinding s).total_scans = s.total_scans := by
  induction rs with
  | nil => intro s; rfl
  | cons r t ih =>
    intro s
    rw [List.foldl_cons, ih, foldFinding_total_scans]

theorem foldl_foldFinding_scans_commute (rs : List Finding) :
    ∀ (s : StatsAcc) (n : Nat),
      rs.foldl foldFinding (withScans s n) =
        withScans (rs.foldl foldFinding s) n := by
  induction rs with
  | nil => intro s n; rfl
  | cons r t ih =>
    intro s n
    rw [List.foldl_cons, List.foldl_cons, foldFinding_scans_commute, ih]

theorem foldDoc_invariant (s : StatsAcc) (d : SarifDoc)
    (h : s.sev_error + s.sev_warning + s.sev_note = s.total_vulns) :
    (foldDoc s d).sev_error + (foldDoc s d).sev_warning +
      (foldDoc s d).sev_note = (foldDoc s d).total_vulns := by
  rcases s with ⟨ts, tv, se, sw, sn, tvl⟩
  dsimp only at h
  unfold foldDoc
  by_cases he : (parse_sarif d).isEmpty
  · simp only [if_pos he]
    omega
  · simp only [if_neg he]
    have h1 := foldl_foldFinding_sevSum (parse_sarif d)
      ⟨ts, tv + (parse_sarif d).length, se, sw, sn, tvl⟩
    have h2 := foldl_foldFinding_total_vulns (parse_sarif d)
      ⟨ts, tv + (parse_sarif d).length, se, sw, sn, tvl⟩
    dsimp only at h1 h2
    omega

theorem foldDoc_total_scans (s : StatsAcc) (d : SarifDoc) :
    (foldDoc s d).total_scans = s.total_scans := by
  unfold foldDoc
  by_cases he : (parse_sarif d).isEmpty
  · simp only [if_pos he]
  · simp only [if_neg he]
    rw [foldl_foldFinding_total_scans]

theorem foldDoc_scans_commute (s : StatsAcc) (n : Nat) (d : SarifDoc) :
    foldDoc (withScans s n) d = withScans (foldDoc s d) n := by
  rcases s with ⟨ts, tv, se, sw, sn, tvl⟩
  unfold foldDoc
  by_cases he : (parse_sarif d).isEmpty
  · simp only [if_pos he]
  · simp only [if_neg he]
    exact foldl_foldFinding_scans_commute (parse_sarif d)
      ⟨ts, tv + (parse_sarif d).length, se, sw, sn, tvl⟩ n

theorem foldl_foldDoc_invariant (docs : List SarifDoc) :
    ∀ s : StatsAcc,
      s.sev_error + s.sev_warning + s.sev_note = s.total_vulns →
      (docs.foldl foldDoc s).sev_error + (docs.foldl foldDoc s).sev_warning +
        (docs.foldl foldDoc s).sev_note =
        (docs.foldl foldDoc s).total_vulns := by
  induction docs with
  | nil => intro s h; exact h
  | cons d t ih =>
    intro s h
    exact ih (foldDoc s d) (foldDoc_invariant s d h)

theorem foldl_foldDoc_total_scans (docs : List SarifDoc) :
    ∀ s : StatsAcc, (docs.foldl foldDoc s).total_scans = s.total_scans := by
  induction docs with
  | nil => intro s; rfl
  | cons d t ih =>
    intro s
    rw [List.foldl_cons, ih, foldDoc_total_scans]

theorem foldl_foldDoc_scans_commute (docs : List SarifDoc) :
    ∀ (s : StatsAcc) (n : Nat),
      docs.foldl foldDoc (withScans s n) =
        withScans (docs.foldl foldDoc s) n := by
  induction docs with
  | nil => intro s n; rfl
  | cons d t ih =>
    intro s n
    rw [List.foldl_cons, List.foldl_cons, foldDoc_scans_commute, ih]

/-! ## Claim C7: the severity distribution partitions the findings -/

/-- C7 (confirmed).  Each finding is bucketed into exactly one of the
three severity counters (level containing "error" → error, else
containing "warn" → warning, else the third bucket — keyed `"note"` in
the code, the spec's info bucket): one finding adds exactly one to the
bucket total.  Consequently, for any set of persisted documents the
severity-distribution values sum to `totalFindings` (`total_vulns`). -/
theorem severity_distribution_partitions (docs : List SarifDoc)
    (s : StatsAcc) (level : String) :
    (get_dashboard_stats docs).sev_error +
      (get_dashboard_stats docs).sev_warning +
      (get_dashboard_stats docs).sev_note =
      (get_dashboard_stats docs).total_vulns ∧
    (bumpSeverity s level).sev_error + (bumpSeverity s level).sev_warning +
      (bumpSeverity s level).sev_note =
      s.sev_error + s.sev_warning + s.sev_note + 1 := by
  constructor
  · unfold get_dashboard_stats
    exact foldl_foldDoc_invariant docs _ rfl
  · rcases s with ⟨ts, tv, se, sw, sn, tvl⟩
    unfold bumpSeverity
    dsimp only
    split_ifs <;> (dsimp only; omega)

/-! ## Claim C9: soft failure on malformed documents -/

theorem foldDoc_empty_parse (s : StatsAcc) (d : SarifDoc)
    (h : parse_sarif d = []) : foldDoc s d = s := by
  unfold foldDoc
  simp [h]

/-- C9 (confirmed).  Parsing a malformed document fails soft — the
normalizer returns the empty finding list instead of propagating an
exception — and a malformed document inserted anywhere in the store
changes nothing in the aggregate except `total_scans`, which still
counts it: aggregation over the remaining documents proceeds
unchanged. -/
theorem malformed_document_skipped (pre post : List SarifDoc)
    (bad : SarifDoc) (h : parse_sarif bad = []) :
    parse_sarif SarifDoc.malformed = [] ∧
    get_dashboard_stats (pre ++ bad :: post) =
      { get_dashboard_stats (pre ++ post) with
          total_scans := (get_dashboard_stats (pre ++ post)).total_scans + 1 } := by
  refine ⟨rfl, ?_⟩
  have hlen : (pre ++ bad :: post).length = (pre ++ post).length + 1 := by
    simp only [List.length_append, List.length_cons]
    omega
  have hfold : ∀ s0 : StatsAcc,
      List.foldl foldDoc s0 (pre ++ bad :: post) =
        List.foldl foldDoc s0 (pre ++ post) := by
    intro s0
    rw [List.foldl_append, List.foldl_append, List.foldl_cons,
      foldDoc_empty_parse _ _ h]
  simp only [get_dashboard_stats]
  rw [hlen, hfold]
  have key : List.foldl foldDoc
      (⟨(pre ++ post).length + 1, 0, 0, 0, 0, []⟩ : StatsAcc)
      (pre ++ post) =
      withScans (List.foldl foldDoc
        (⟨(pre ++ post).length, 0, 0, 0, 0, []⟩ : StatsAcc) (pre ++ post))
        ((pre ++ post).length + 1) :=
    foldl_foldDoc_scans_commute (pre ++ post)
      ⟨(pre ++ post).length, 0, 0, 0, 0, []⟩ ((pre ++ post).length + 1)
  rw [key]
  have hts : (List.foldl foldDoc
      (⟨(pre ++ post).length, 0, 0, 0, 0, []⟩ : StatsAcc)
      (pre ++ post)).total_scans = (pre ++ post).length :=
    foldl_foldDoc_total_scans (pre ++ post) _
  dsimp only [withScans]
  rw [hts]

/-- C9 witness: a malformed document alone contributes one scan and
nothing else to the dashboard statistics. -/
theorem malformed_document_skipped_witness :
    parse_sarif SarifDoc.malformed = [] ∧
    get_dashboard_stats [SarifDoc.malformed] =
      { get_dashboard_stats [] with
          total_scans := (get_dashboard_stats []).total_scans + 1 } := by
  exact malformed_document_skipped [] [] SarifDoc.malformed rfl

/-! ## Claim C8: language-detector machinery.

Spec-side measurement functions for the tie-break law: the number of
files mapping to a language and the position of the first such file. -/

/-- How many files of `fl` map to language `l`. -/
def langCount (l : String) (fl : List String) : Nat :=
  (fl.filterMap langOf).count l

/-- The position in `fl` of the first file mapping to language `l`
(`fl.length` when there is none). -/
def firstLangIdx (l : String) : List String → Nat
  | [] => 0
  | f :: t => if langOf f = some l then 0 else firstLangIdx l t + 1

/-- The position of the first occurrence of `a` (`length` when absent). -/
def firstIdx (a : String) : List String → Nat
  | [] => 0
  | x :: t => if x = a then 0 else firstIdx a t + 1

/-- The keys a run of the histogram loop appends beyond `seen`, in
first-seen order. -/
def newKeys (seen : List String) : List String → List String
  | [] => []
  | x :: t => if x ∈ seen then newKeys seen t else x :: newKeys (x :: seen) t

/-- The count stored for key `x` (0 when absent). -/
def lookupCount (x : String) (h : List (String × Nat)) : Nat :=
  (List.lookup x h).getD 0

theorem bump_keys (acc : List (String × Nat)) (x : String) :
    (bump acc x).map Prod.fst =
      if x ∈ acc.map Prod.fst then acc.map Prod.fst
      else acc.map Prod.fst ++ [x] := by
  induction acc with
  | nil => simp [bump]
  | cons p rest ih =>
    rcases p with ⟨k, c⟩
    by_cases hk : k = x
    · simp [bump, hk]
    · simp only [bump, if_neg hk, List.map_cons, ih, List.mem_cons]
      by_cases hx : x ∈ rest.map Prod.fst
      · simp [hx, hk, Ne.symm hk]
      · simp [hx, hk, Ne.symm hk]

theorem bump_lookupCount (acc : List (String × Nat)) (x y : String) :
    lookupCount x (bump acc y) =
      lookupCount x acc + (if x = y then 1 else 0) := by
  induction acc with
  | nil =>
    by_cases hxy : x = y
    · subst hxy
      simp [bump, lookupCount, List.lookup]
    · simp [bump, lookupCount, List.lookup, beq_eq_false_iff_ne.2 hxy, hxy]
  | cons p rest ih =>
    rcases p with ⟨k, c⟩
    simp only [bump]
    by_cases hk : k = y
    · subst hk
      by_cases hxk : x = k
      · subst hxk
        simp [lookupCount, List.lookup]
      · simp [lookupCount, List.lookup, beq_eq_false_iff_ne.2 hxk, hxk]
    · simp only [if_neg hk]
      by_cases hxk : x = k
      · subst hxk
        have hxy : x ≠ y := hk
        simp [lookupCount, List.lookup, hxy]
      · simp only [lookupCount, List.lookup,
          beq_eq_false_iff_ne.2 hxk]
        exact ih

theorem foldl_bump_lookupCount (ls : List String) :
    ∀ (acc : List (String × Nat)) (x : String),
      lookupCount x (ls.foldl bump acc) = lookupCount x acc + ls.count x := by
  induction ls with
  | nil => intro acc x; simp
  | cons y t ih =>
    intro acc x
    rw [List.foldl_cons, ih, bump_lookupCount]
    by_cases hxy : x = y
    · subst hxy
      simp [List.count_cons]
      omega
    · simp [List.count_cons, hxy,
        show (y == x) = false from beq_eq_false_iff_ne.2 (Ne.symm hxy)]

theorem newKeys_congr (t : List String) :
    ∀ s1 s2 : List String, (∀ y, y ∈ s1 ↔ y ∈ s2) →
      newKeys s1 t = newKeys s2 t := by
  induction t with
  | nil => intro s1 s2 h; rfl
  | cons x t ih =>
    intro s1 s2 h
    by_cases hx : x ∈ s1
    · simp only [newKeys, if_pos hx, if_pos ((h x).1 hx)]
      exact ih s1 s2 h
    · simp only [newKeys, if_neg hx, if_neg (fun hc => hx ((h x).2 hc))]
      congr 1
      refine ih (x :: s1) (x :: s2) ?_
      intro y
      simp [h y]

theorem foldl_bump_keys (ls : List String) :
    ∀ acc : List (String × Nat),
      (ls.foldl bump acc).map Prod.fst =
        acc.map Prod.fst ++ newKeys (acc.map Prod.fst) ls := by
  induction ls with
  | nil => intro acc; simp [newKeys]
  | cons x t ih =>
    intro acc
    rw [List.foldl_cons, ih (bump acc x), bump_keys]
    by_cases hx : x ∈ acc.map Prod.fst
    · rw [if_pos hx]
      simp only [newKeys, if_pos hx]
    · rw [if_neg hx]
      simp only [newKeys, if_neg hx]
      have hc := newKeys_congr t (acc.map Prod.fst ++ [x])
        (x :: acc.map Prod.fst) (by intro y; simp [or_comm])
      rw [hc]
      simp

theorem newKeys_mem_spec (ls : List String) :
    ∀ (seen : List String) (y : String),
      y ∈ newKeys seen ls → y ∈ ls ∧ y ∉ seen := by
  induction ls with
  | nil => intro seen y h; simp [newKeys] at h
  | cons x t ih =>
    intro seen y h
    by_cases hx : x ∈ seen
    · simp only [newKeys, if_pos hx] at h
      obtain ⟨h1, h2⟩ := ih seen y h
      exact ⟨List.mem_cons_of_mem _ h1, h2⟩
    · simp only [newKeys, if_neg hx] at h
      rcases List.mem_cons.1 h with rfl | h2
      · exact ⟨List.mem_cons_self _ _, hx⟩
      · obtain ⟨h1, h2⟩ := ih (x :: seen) y h2
        exact ⟨List.mem_cons_of_mem _ h1,
          fun hc => h2 (List.mem_cons_of_mem _ hc)⟩

theorem newKeys_nodup (ls : List String) :
    ∀ seen : List String, (newKeys seen ls).Nodup := by
  induction ls with
  | nil => intro seen; simp [newKeys]
  | cons x t ih =>
    intro seen
    by_cases hx : x ∈ seen
    · simp only [newKeys, if_pos hx]
      exact ih seen
    · simp only [newKeys, if_neg hx]
      refine List.nodup_cons.2 ⟨?_, ih (x :: seen)⟩
      intro hc
      exact (newKeys_mem_spec t (x :: seen) x hc).2 (List.mem_cons_self _ _)

theorem mem_newKeys (ls : List String) :
    ∀ (seen : List String) (a : String),
      a ∈ ls → a ∉ seen → a ∈ newKeys seen ls := by
  induction ls with
  | nil => intro seen a ha _; simp at ha
  | cons x t ih =>
    intro seen a ha hns
    by_cases hx : x ∈ seen
    · simp only [newKeys, if_pos hx]
      rcases List.mem_cons.1 ha with rfl | ha2
      · exact absurd hx hns
      · exact ih seen a ha2 hns
    · simp only [newKeys, if_neg hx]
      by_cases hax : a = x
      · subst hax
        exact List.mem_cons_self _ _
      · rcases List.mem_cons.1 ha with rfl | ha2
        · exact absurd rfl hax
        · refine List.mem_cons_of_mem _ (ih (x :: seen) a ha2 ?_)
          intro hc
          rcases List.mem_cons.1 hc with h | h
          · exact hax h
          · exact hns h

theorem newKeys_firstIdx (ls : List String) :
    ∀ (seen : List String) (a b : String), a ≠ b →
      a ∈ newKeys seen ls → b ∈ newKeys seen ls →
      (firstIdx a (newKeys seen ls) < firstIdx b (newKeys seen ls) ↔
        firstIdx a ls < firstIdx b ls) := by
  induction ls with
  | nil => intro seen a b hab ha _; simp [newKeys] at ha
  | cons x t ih =>
    intro seen a b hab ha hb
    have hba : ¬ b = a := fun h => hab h.symm
    by_cases hx : x ∈ seen
    · simp only [newKeys, if_pos hx] at ha hb ⊢
      have hxa : ¬ x = a := fun h => (newKeys_mem_spec t seen a ha).2 (h ▸ hx)
      have hxb : ¬ x = b := fun h => (newKeys_mem_spec t seen b hb).2 (h ▸ hx)
      rw [show firstIdx a (x :: t) = firstIdx a t + 1 by simp [firstIdx, hxa],
        show firstIdx b (x :: t) = firstIdx b t + 1 by simp [firstIdx, hxb],
        ih seen a b hab ha hb]
      omega
    · simp only [newKeys, if_neg hx] at ha hb ⊢
      by_cases hax : a = x
      · subst hax
        have hb2 : b ∈ newKeys (a :: seen) t := by
          rcases List.mem_cons.1 hb with h | h
          · exact absurd h hba
          · exact h
        rw [show firstIdx a (a :: newKeys (a :: seen) t) = 0 by
              simp [firstIdx],
          show firstIdx a (a :: t) = 0 by simp [firstIdx],
          show firstIdx b (a :: newKeys (a :: seen) t) =
              firstIdx b (newKeys (a :: seen) t) + 1 by
            simp [firstIdx, hab],
          show firstIdx b (a :: t) = firstIdx b t + 1 by
            simp [firstIdx, hab]]
        omega
      · by_cases hbx : b = x
        · subst hbx
          have ha2 : a ∈ newKeys (b :: seen) t := by
            rcases List.mem_cons.1 ha with h | h
            · exact absurd h hab
            · exact h
          rw [show firstIdx b (b :: newKeys (b :: seen) t) = 0 by
                simp [firstIdx],
            show firstIdx b (b :: t) = 0 by simp [firstIdx],
            show firstIdx a (b :: newKeys (b :: seen) t) =
                firstIdx a (newKeys (b :: seen) t) + 1 by
              simp [firstIdx, hba],
            show firstIdx a (b :: t) = firstIdx a t + 1 by
              simp [firstIdx, hba]]
          omega
        · have hxa : ¬ x = a := fun h => hax h.symm
          have hxb : ¬ x = b := fun h => hbx h.symm
          have ha2 : a ∈ newKeys (x :: seen) t := by
            rcases List.mem_cons.1 ha with h | h
            · exact absurd h hax
            · exact h
          have hb2 : b ∈ newKeys (x :: seen) t := by
            rcases List.mem_cons.1 hb with h | h
            · exact absurd h hbx
            · exact h
          rw [show firstIdx a (x :: newKeys (x :: seen) t) =
                firstIdx a (newKeys (x :: seen) t) + 1 by
              simp [firstIdx, hxa],
            show firstIdx b (x :: newKeys (x :: seen) t) =
                firstIdx b (newKeys (x :: seen) t) + 1 by
              simp [firstIdx, hxb],
            show firstIdx a (x :: t) = firstIdx a t + 1 by
              simp [firstIdx, hxa],
            show firstIdx b (x :: t) = firstIdx b t + 1 by
              simp [firstIdx, hxb]]
          have hiff := ih (x :: seen) a b hab ha2 hb2
          omega

theorem maxFirst_acc_le (xs : List (String × Nat)) :
    ∀ x : String × Nat, x.2 ≤ (maxFirst x xs).2 := by
  induction xs with
  | nil => intro x; exact le_refl _
  | cons y t ih =>
    intro x
    have hstep : x.2 ≤ (if y.2 > x.2 then y else x).2 := by
      by_cases h : y.2 > x.2
      · simp only [if_pos h]; omega
      · simp only [if_neg h]; omega
    exact le_trans hstep (ih _)

theorem maxFirst_mem (xs : List (String × Nat)) :
    ∀ x : String × Nat, maxFirst x xs ∈ x :: xs := by
  induction xs with
  | nil => intro x; simp [maxFirst]
  | cons y t ih =>
    intro x
    have hstep : maxFirst x (y :: t) =
        maxFirst (if y.2 > x.2 then y else x) t := rfl
    rw [hstep]
    rcases List.mem_cons.1 (ih (if y.2 > x.2 then y else x)) with he | ht
    · rw [he]
      by_cases hc : y.2 > x.2 <;> simp [hc]
    · exact List.mem_cons_of_mem _ (List.mem_cons_of_mem _ ht)

theorem maxFirst_ge (xs : List (String × Nat)) :
    ∀ x : String × Nat, ∀ y ∈ x :: xs, y.2 ≤ (maxFirst x xs).2 := by
  induction xs with
  | nil =>
    intro x y hy
    have : y = x := by simpa using hy
    subst this
    exact le_refl _
  | cons z t ih =>
    intro x y hy
    have hstep : maxFirst x (z :: t) =
        maxFirst (if z.2 > x.2 then z else x) t := rfl
    rw [hstep]
    have hxa : x.2 ≤ (if z.2 > x.2 then z else x).2 := by
      by_cases hc : z.2 > x.2
      · simp only [if_pos hc]; omega
      · simp only [if_neg hc]; omega
    have hza : z.2 ≤ (if z.2 > x.2 then z else x).2 := by
      by_cases hc : z.2 > x.2
      · simp only [if_pos hc]; omega
      · simp only [if_neg hc]; omega
    rcases List.mem_cons.1 hy with rfl | hy2
    · exact le_trans hxa (maxFirst_acc_le t _)
    rcases List.mem_cons.1 hy2 with rfl | hy3
    · exact le_trans hza (maxFirst_acc_le t _)
    · exact ih _ y (List.mem_cons_of_mem _ hy3)

theorem maxFirst_split (xs : List (String × Nat)) :
    ∀ x : String × Nat, ∃ pre post,
      x :: xs = pre ++ (maxFirst x xs) :: post ∧
      ∀ y ∈ pre, y.2 < (maxFirst x xs).2 := by
  induction xs with
  | nil => intro x; exact ⟨[], [], rfl, by simp⟩
  | cons z t ih =>
    intro x
    have hstep : maxFirst x (z :: t) =
        maxFirst (if z.2 > x.2 then z else x) t := rfl
    by_cases hc : z.2 > x.2
    · obtain ⟨pre, post, hsplit, hlt⟩ := ih z
      have hr : maxFirst x (z :: t) = maxFirst z t := by
        rw [hstep, if_pos hc]
      refine ⟨x :: pre, post, ?_, ?_⟩
      · rw [hr]
        simp only [List.cons_append]
        rw [← hsplit]
      · intro y hy
        rw [hr]
        rcases List.mem_cons.1 hy with rfl | hy2
        · exact lt_of_lt_of_le hc (by
            have := maxFirst_acc_le t z
            exact this)
        · exact hlt y hy2
    · have hr : maxFirst x (z :: t) = maxFirst x t := by
        rw [hstep, if_neg hc]
      obtain ⟨pre, post, hsplit, hlt⟩ := ih x
      cases pre with
      | nil =>
        simp only [List.nil_append] at hsplit
        have hx1 : x = maxFirst x t := (List.cons.injEq _ _ _ _ ▸ hsplit).1
        refine ⟨[], z :: t, ?_, by simp⟩
        rw [hr, ← hx1]
        rfl
      | cons p ps =>
        simp only [List.cons_append] at hsplit
        have h1 : x = p := (List.cons.injEq _ _ _ _ ▸ hsplit).1
        have h2 : t = ps ++ maxFirst x t :: post :=
          (List.cons.injEq _ _ _ _ ▸ hsplit).2
        have hxlt : x.2 < (maxFirst x t).2 := by
          have := hlt p (List.mem_cons_self _ _)
          rw [← h1] at this
          exact this
        refine ⟨x :: z :: ps, post, ?_, ?_⟩
        · rw [hr]
          simp only [List.cons_append]
          rw [← h2]
        · intro y hy
          rw [hr]
          rcases List.mem_cons.1 hy with rfl | hy2
          · exact hxlt
          rcases List.mem_cons.1 hy2 with rfl | hy3
          · have hzx : y.2 ≤ x.2 := by omega
            exact lt_of_le_of_lt hzx hxlt
          · have : y ∈ p :: ps := List.mem_cons_of_mem _ hy3
            exact hlt y this

theorem lookup_of_mem_nodup (h : List (String × Nat)) :
    ∀ p : String × Nat, (h.map Prod.fst).Nodup → p ∈ h →
      List.lookup p.1 h = some p.2 := by
  induction h with
  | nil => intro p _ hp; simp at hp
  | cons q t ih =>
    intro p hnd hp
    rcases List.mem_cons.1 hp with rfl | hp2
    · simp [List.lookup]
    · have hq : q.1 ∉ t.map Prod.fst := (List.nodup_cons.1 (by simpa using hnd)).1
      have hne : ¬ (p.1 == q.1) = true := by
        intro hc
        have : p.1 = q.1 := by simpa using hc
        exact hq (this ▸ List.mem_map_of_mem Prod.fst hp2)
      simp only [List.lookup, hne]
      exact ih p (List.nodup_cons.1 (by simpa using hnd)).2 hp2

theorem not_mem_keys_lookup (h : List (String × Nat)) :
    ∀ x : String, x ∉ h.map Prod.fst → List.lookup x h = none := by
  induction h with
  | nil => intro x _; rfl
  | cons q t ih =>
    intro x hx
    have h1 : ¬ x = q.1 := fun hc => hx (by simp [hc])
    have h2 : x ∉ t.map Prod.fst := fun hc => hx (by simp [hc])
    simp only [List.lookup, show (x == q.1) = false from beq_eq_false_iff_ne.2 h1]
    exact ih x h2

theorem firstIdx_append_not_mem (m : List String) (a : String)
    (h : a ∉ m) (rest : List String) :
    firstIdx a (m ++ rest) = m.length + firstIdx a rest := by
  induction m with
  | nil => simp
  | cons x t ih =>
    have hxa : ¬ x = a := fun hc => h (by simp [hc])
    have ht : a ∉ t := fun hc => h (List.mem_cons_of_mem _ hc)
    simp only [List.cons_append, List.append_eq, firstIdx, if_neg hxa,
      ih ht, List.length_cons]
    omega

theorem firstIdx_filterMap (fl : List String) :
    ∀ a b : String, a ≠ b →
      a ∈ fl.filterMap langOf → b ∈ fl.filterMap langOf →
      (firstIdx a (fl.filterMap langOf) < firstIdx b (fl.filterMap langOf) ↔
        firstLangIdx a fl < firstLangIdx b fl) := by
  induction fl with
  | nil => intro a b hab ha _; simp at ha
  | cons f t ih =>
    intro a b hab ha hb
    have hba : ¬ b = a := fun h => hab h.symm
    cases hl : langOf f with
    | none =>
      simp only [List.filterMap_cons, hl] at ha hb ⊢
      have hfa : ¬ langOf f = some a := by simp [hl]
      have hfb : ¬ langOf f = some b := by simp [hl]
      rw [show firstLangIdx a (f :: t) = firstLangIdx a t + 1 by
            simp [firstLangIdx, hfa],
        show firstLangIdx b (f :: t) = firstLangIdx b t + 1 by
          simp [firstLangIdx, hfb]]
      have hiff := ih a b hab ha hb
      omega
    | some m =>
      simp only [List.filterMap_cons, hl] at ha hb ⊢
      by_cases ham : a = m
      · subst ham
        have hfa : langOf f = some a := hl
        have hfb : ¬ langOf f = some b := by
          rw [hl]
          simpa using hab
        rw [show firstIdx a (a :: List.filterMap langOf t) = 0 by
              simp [firstIdx],
          show firstIdx b (a :: List.filterMap langOf t) =
              firstIdx b (List.filterMap langOf t) + 1 by
            simp [firstIdx, hab],
          show firstLangIdx a (f :: t) = 0 by simp [firstLangIdx, hfa],
          show firstLangIdx b (f :: t) = firstLangIdx b t + 1 by
            simp [firstLangIdx, hfb]]
        omega
      · by_cases hbm : b = m
        · subst hbm
          have hfb : langOf f = some b := hl
          have hfa : ¬ langOf f = some a := by
            rw [hl]
            simpa using hba
          rw [show firstIdx b (b :: List.filterMap langOf t) = 0 by
                simp [firstIdx],
            show firstIdx a (b :: List.filterMap langOf t) =
                firstIdx a (List.filterMap langOf t) + 1 by
              simp [firstIdx, hba],
            show firstLangIdx b (f :: t) = 0 by simp [firstLangIdx, hfb],
            show firstLangIdx a (f :: t) = firstLangIdx a t + 1 by
              simp [firstLangIdx, hfa]]
          omega
        · have hma : ¬ m = a := fun h => ham h.symm
          have hmb : ¬ m = b := fun h => hbm h.symm
          have hfa : ¬ langOf f = some a := by simp [hl, hma]
          have hfb : ¬ langOf f = some b := by simp [hl, hmb]
          have ha2 : a ∈ List.filterMap langOf t := by
            rcases List.mem_cons.1 ha with h | h
            · exact absurd h ham
            · exact h
          have hb2 : b ∈ List.filterMap langOf t := by
            rcases List.mem_cons.1 hb with h | h
            · exact absurd h hbm
            · exact h
          rw [show firstIdx a (m :: List.filterMap langOf t) =
                firstIdx a (List.filterMap langOf t) + 1 by
              simp [firstIdx, hma],
            show firstIdx b (m :: List.filterMap langOf t) =
                firstIdx b (List.filterMap langOf t) + 1 by
              simp [firstIdx, hmb],
            show firstLangIdx a (f :: t) = firstLangIdx a t + 1 by
              simp [firstLangIdx, hfa],
            show firstLangIdx b (f :: t) = firstLangIdx b t + 1 by
              simp [firstLangIdx, hfb]]
          have hiff := ih a b hab ha2 hb2
          omega

theorem histOf_eq_nil_iff (fl : List String) :
    histOf fl = [] ↔ fl.filterMap langOf = [] := by
  constructor
  · intro h
    by_contra hne
    obtain ⟨x, t, hx⟩ := List.exists_cons_of_ne_nil hne
    have hk := foldl_bump_keys (fl.filterMap langOf) []
    rw [show (fl.filterMap langOf).foldl bump [] = histOf fl from rfl,
      h, hx] at hk
    simp [newKeys] at hk
  · intro h
    unfold histOf
    rw [h]
    rfl

/-- C8 (confirmed).  The language detector is a pure function (hence
deterministic) satisfying: on a file list whose histogram is empty
(no file maps to any language) it returns the distinguished absence
`none`, and exactly then; when it returns a language `l`, some file maps
to `l`, no language has a strictly larger file count, and any *other*
language with the same count has its first file strictly later in the
input ordering (first-seen-max tie-break). -/
theorem detect_language_spec (fl : List String) :
    (detect_language fl = none ↔ ∀ f ∈ fl, langOf f = none) ∧
    (∀ l, detect_language fl = some l →
      0 < langCount l fl ∧
      (∀ la, langCount la fl ≤ langCount l fl) ∧
      (∀ la, la ≠ l → langCount la fl = langCount l fl →
        firstLangIdx l fl < firstLangIdx la fl)) := by
  have hkeys : (histOf fl).map Prod.fst =
      newKeys [] (fl.filterMap langOf) := by
    rw [show histOf fl = (fl.filterMap langOf).foldl bump [] from rfl,
      foldl_bump_keys]
    simp
  have hcount : ∀ la, lookupCount la (histOf fl) =
      (fl.filterMap langOf).count la := by
    intro la
    rw [show histOf fl = (fl.filterMap langOf).foldl bump [] from rfl,
      foldl_bump_lookupCount]
    simp [lookupCount]
  constructor
  · constructor
    · intro h
      have hnil : histOf fl = [] := by
        cases hh : histOf fl with
        | nil => rfl
        | cons x xs =>
          unfold detect_language at h
          rw [hh] at h
          simp at h
      rw [histOf_eq_nil_iff] at hnil
      exact List.filterMap_eq_nil_iff.1 hnil
    · intro h
      have h2 : histOf fl = [] :=
        (histOf_eq_nil_iff fl).2 (List.filterMap_eq_nil_iff.2 h)
      unfold detect_language
      rw [h2]
  · intro l hl
    cases hh : histOf fl with
    | nil =>
      unfold detect_language at hl
      rw [hh] at hl
      simp at hl
    | cons x xs =>
      unfold detect_language at hl
      rw [hh] at hl
      have hl2 : (maxFirst x xs).1 = l := by simpa using hl
      subst hl2
      have hrmem : maxFirst x xs ∈ x :: xs := maxFirst_mem xs x
      have hkeys2 : (x :: xs).map Prod.fst =
          newKeys [] (fl.filterMap langOf) := by
        rw [← hh]
        exact hkeys
      have hnd : ((x :: xs).map Prod.fst).Nodup := by
        rw [hkeys2]
        exact newKeys_nodup _ _
      have hcnt2 : ∀ la, lookupCount la (x :: xs) =
          (fl.filterMap langOf).count la := by
        intro la
        rw [← hh]
        exact hcount la
      have hlook : List.lookup (maxFirst x xs).1 (x :: xs) =
          some (maxFirst x xs).2 :=
        lookup_of_mem_nodup _ _ hnd hrmem
      have hrcount : langCount (maxFirst x xs).1 fl = (maxFirst x xs).2 := by
        unfold langCount
        rw [← hcnt2]
        unfold lookupCount
        rw [hlook]
        rfl
      have hrkey : (maxFirst x xs).1 ∈ (x :: xs).map Prod.fst :=
        List.mem_map_of_mem Prod.fst hrmem
      have hrls : (maxFirst x xs).1 ∈ fl.filterMap langOf := by
        have h0 := hrkey
        rw [hkeys2] at h0
        exact (newKeys_mem_spec _ _ _ h0).1
      have hpos : 0 < langCount (maxFirst x xs).1 fl := by
        unfold langCount
        exact List.count_pos_iff.2 hrls
      refine ⟨hpos, ?_, ?_⟩
      · intro la
        by_cases hla : la ∈ (x :: xs).map Prod.fst
        · obtain ⟨p, hp, hpe⟩ := List.mem_map.1 hla
          have hple := maxFirst_ge xs x p hp
          have hlook2 : List.lookup la (x :: xs) = some p.2 := by
            rw [← hpe]
            exact lookup_of_mem_nodup _ p hnd hp
          have hc : langCount la fl = p.2 := by
            unfold langCount
            rw [← hcnt2 la]
            unfold lookupCount
            rw [hlook2]
            rfl
          rw [hc, hrcount]
          exact hple
        · have hnone := not_mem_keys_lookup (x :: xs) la hla
          have hc : langCount la fl = 0 := by
            unfold langCount
            rw [← hcnt2 la]
            unfold lookupCount
            rw [hnone]
            rfl
          rw [hc]
          exact Nat.zero_le _
      · intro la hne hceq
        have hlanotr : ¬ (maxFirst x xs).1 = la := fun h => hne h.symm
        have hlapos : 0 < langCount la fl := by
          rw [hceq]
          exact hpos
        have hlals : la ∈ fl.filterMap langOf := by
          unfold langCount at hlapos
          exact List.count_pos_iff.1 hlapos
        have hlakey : la ∈ (x :: xs).map Prod.fst := by
          rw [hkeys2]
          exact mem_newKeys _ [] la hlals (by simp)
        obtain ⟨p, hp, hpe⟩ := List.mem_map.1 hlakey
        have hlook2 : List.lookup la (x :: xs) = some p.2 := by
          rw [← hpe]
          exact lookup_of_mem_nodup _ p hnd hp
        have hc : langCount la fl = p.2 := by
          unfold langCount
          rw [← hcnt2 la]
          unfold lookupCount
          rw [hlook2]
          rfl
        have hp2 : p.2 = (maxFirst x xs).2 := by
          have h0 := hceq
          rw [hc, hrcount] at h0
          exact h0
        have hpla : p = (la, (maxFirst x xs).2) := Prod.ext hpe hp2
        obtain ⟨pre, post, hsplit, hlt⟩ := maxFirst_split xs x
        have hppost : (la, (maxFirst x xs).2) ∈ post := by
          have hp3 : (la, (maxFirst x xs).2) ∈ x :: xs := hpla ▸ hp
          rw [hsplit] at hp3
          rcases List.mem_append.1 hp3 with hin | hin
          · have hbad := hlt _ hin
            simp at hbad
          · rcases List.mem_cons.1 hin with he | hin2
            · exfalso
              apply hne
              have h4 := congrArg Prod.fst he
              simpa using h4
            · exact hin2
        have hkeyssplit : (x :: xs).map Prod.fst =
            pre.map Prod.fst ++ (maxFirst x xs).1 :: post.map Prod.fst := by
          rw [hsplit]
          simp
        have hndsplit : (pre.map Prod.fst ++
            (maxFirst x xs).1 :: post.map Prod.fst).Nodup := by
          rw [← hkeyssplit]
          exact hnd
        obtain ⟨hnd1, hnd2, hdisj⟩ := List.nodup_append.1 hndsplit
        have hrnotpre : (maxFirst x xs).1 ∉ pre.map Prod.fst :=
          fun hc2 => (hdisj hc2) (List.mem_cons_self _ _)
        have hlanotpre : la ∉ pre.map Prod.fst :=
          fun hc2 => (hdisj hc2)
            (List.mem_cons_of_mem _ (List.mem_map_of_mem Prod.fst hppost))
        have hposr : firstIdx (maxFirst x xs).1 ((x :: xs).map Prod.fst) =
            (pre.map Prod.fst).length := by
          rw [hkeyssplit, firstIdx_append_not_mem _ _ hrnotpre]
          simp [firstIdx]
        have hposla : firstIdx la ((x :: xs).map Prod.fst) =
            (pre.map Prod.fst).length +
              (firstIdx la (post.map Prod.fst) + 1) := by
          rw [hkeyssplit, firstIdx_append_not_mem _ _ hlanotpre]
          congr 1
          simp [firstIdx, hlanotr]
        have hklt : firstIdx (maxFirst x xs).1 ((x :: xs).map Prod.fst) <
            firstIdx la ((x :: xs).map Prod.fst) := by
          rw [hposr, hposla]
          omega
        have hrnk : (maxFirst x xs).1 ∈ newKeys [] (fl.filterMap langOf) := by
          rw [← hkeys2]
          exact hrkey
        have hlank : la ∈ newKeys [] (fl.filterMap langOf) := by
          rw [← hkeys2]
          exact hlakey
        have hiff1 := newKeys_firstIdx (fl.filterMap langOf) []
          (maxFirst x xs).1 la hlanotr hrnk hlank
        rw [hkeys2] at hklt
        have hlsrel : firstIdx (maxFirst x xs).1 (fl.filterMap langOf) <
            firstIdx la (fl.filterMap langOf) := hiff1.1 hklt
        exact (firstIdx_filterMap fl (maxFirst x xs).1 la hlanotr
          hrls hlals).1 hlsrel

/-- C8 witness: on `["a.java", "b.py", "c.py", "d.java"]` both languages
occur twice and java, whose first file comes first, wins the
tie-break. -/
theorem detect_language_spec_witness :
    detect_language ["a.java", "b.py", "c.py", "d.java"] = some "java" ∧
    0 < langCount "java" ["a.java", "b.py", "c.py", "d.java"] ∧
    langCount "python" ["a.java", "b.py", "c.py", "d.java"] =
      langCount "java" ["a.java", "b.py", "c.py", "d.java"] ∧
    firstLangIdx "java" ["a.java", "b.py", "c.py", "d.java"] <
      firstLangIdx "python" ["a.java", "b.py", "c.py", "d.java"] := by
  have hd : detect_language ["a.java", "b.py", "c.py", "d.java"] =
      some "java" := by decide
  have h := (detect_language_spec ["a.java", "b.py", "c.py", "d.java"]).2
    "java" hd
  exact ⟨hd, h.1, by decide, h.2.2 "python" (by decide) (by decide)⟩

end App
